import Mathlib

/-!
Shallow embedding of `src/number_key_map.rs` (`NumberKeyMap<V>`), the direct-index
open-addressing map of the `orengine-utils` repository.

Modelling conventions:
* `usize` is modelled as `Nat`; `usize::MAX` (the vacant-slot sentinel) is the
  constant `MAX_KEY = 2 ^ 64 - 1`.
* A slot is `Option (Nat × V)`: `none` is a vacant slot (`key == usize::MAX`),
  `some (k, v)` is an occupied slot.  The buffer `inner` together with `capacity`
  is the list `slots` (so `capacity = slots.length`; a null, unallocated buffer is
  the empty list, exactly as `inner.is_null() ↔ capacity = 0` in every state the
  program can produce).
* Panics/aborts (`validate_key`, the `assert_hint` contract checks, and Rust's
  remainder-by-zero panic) are modelled explicitly: fallible public operations
  return a `PanicOr`/`InsertOut` value with a dedicated `panic` constructor.
* The unbounded resize retry loop of `slow_insert` is modelled with explicit
  fuel; the extra constructor `nofuel` marks fuel exhaustion (never a behaviour
  of the program — termination is proved separately).
-/

namespace OrengineNumberKeyMap

/-- The vacant-slot sentinel, `usize::MAX` on a 64-bit target. -/
def MAX_KEY : Nat := 2 ^ 64 - 1

/-- The slot buffer of a map: one `Option (Nat × V)` per slot, `none` meaning the
slot key equals `usize::MAX` (vacant). -/
abbrev Slots (V : Type) := List (Option (Nat × V))

/-- The map `NumberKeyMap<V>`: the `inner` buffer and its `capacity`, collapsed
into a single list of slots (`capacity = slots.length`, null buffer = `[]`). -/
structure NumberKeyMap (V : Type) where
  slots : Slots V
deriving DecidableEq

/-- Result of a fallible operation: either it aborts the process (a
`validate_key`/`assert_hint` failure or a Rust arithmetic panic) or returns. -/
inductive PanicOr (α : Type) where
  | panic
  | ok (val : α)
deriving DecidableEq

/-- Internal error codes of the low-level insertion routine `insert_or_fail`. -/
inductive InsertFailErr where
  | NotEnoughSpace
  | KeyAlreadyExists
deriving DecidableEq

/-- Result of `NumberKeyMap::insert` (and of the `slow_insert` loop): `ok` is
`Ok(())` with the updated map, `dup m' w` is `Err(w)` (duplicate key, rejected
value handed back) with the updated map `m'`, `panic` is a process abort, and
`nofuel` is exhaustion of the explicit fuel of the model (not a program
behaviour). -/
inductive InsertOut (V : Type) where
  | ok (m : NumberKeyMap V)
  | dup (m : NumberKeyMap V) (value : V)
  | panic
  | nofuel
deriving DecidableEq

/-- Rust `usize::is_power_of_two` (true iff exactly one bit is set; false at 0). -/
def isPowerOfTwo : Nat → Bool
  | 0 => false
  | 1 => true
  | n + 2 => decide ((n + 2) % 2 = 0) && isPowerOfTwo ((n + 2) / 2)
decreasing_by exact Nat.div_lt_self (by omega) (by omega)

/-- `NumberKeyMap::get_started_slot_idx_for_key`: the primary hash, `key % capacity`. -/
def get_started_slot_idx_for_key (key capacity : Nat) : Nat := key % capacity

/-- `NumberKeyMap::greater_capacity`: the growth policy. `capacity*2 + 2` below 16,
otherwise `capacity*8/7`, bumped by one when that quotient is a power of two. -/
def greater_capacity (capacity : Nat) : Nat :=
  if capacity < 16 then capacity * 2 + 2
  else
    let new_capacity := capacity * 8 / 7
    if isPowerOfTwo new_capacity then new_capacity + 1 else new_capacity

/-- `NumberKeyMap::insert_or_fail`: try to write `(key, value)` into the slot at
`key % capacity` of an allocated buffer.  Vacant slot: write and succeed.  Slot
already holding `key`: `KeyAlreadyExists`.  Slot holding another key:
`NotEnoughSpace`. -/
def insert_or_fail (slots : Slots V) (key : Nat) (value : V) :
    Except InsertFailErr (Slots V) :=
  let idx := get_started_slot_idx_for_key key slots.length
  match slots.getD idx none with
  | none => .ok (slots.set idx (some (key, value)))
  | some (k, _) => if key = k then .error .KeyAlreadyExists else .error .NotEnoughSpace

/-- A freshly allocated buffer of `n` slots, every slot preset to vacant. -/
def vacant (V : Type) (n : Nat) : Slots V := List.replicate n none

/-- Result of the recopy pass of `slow_insert`: all old entries reinserted into
the candidate buffer, or a collision (discard and grow), or the
`assert_hint` abort on a duplicate key found while reallocating. -/
inductive CopyRes (V : Type) where
  | ok (buf : Slots V)
  | collision
  | panic
deriving DecidableEq

/-- The recopy pass of `slow_insert`: walk the old buffer in index order and
reinsert every occupied slot into the candidate buffer with `insert_or_fail`. -/
def recopy : Slots V → Slots V → CopyRes V
  | [], buf => .ok buf
  | none :: rest, buf => recopy rest buf
  | some (k, v) :: rest, buf =>
    match insert_or_fail buf k v with
    | .ok buf' => recopy rest buf'
    | .error .NotEnoughSpace => .collision
    | .error .KeyAlreadyExists => .panic

/-- The `'allocate` retry loop of `NumberKeyMap::slow_insert`, with explicit fuel:
allocate a vacant candidate buffer, recopy all old entries, then insert the
triggering pair.  A collision at either stage grows the candidate capacity and
restarts; `KeyAlreadyExists` at the final insert commits the resize and reports
the duplicate with the rejected value. -/
def slow_insert_loop (old : Slots V) (key : Nat) (value : V) :
    Nat → Nat → InsertOut V
  | 0, _ => .nofuel
  | fuel + 1, new_capacity =>
    match recopy old (vacant V new_capacity) with
    | .panic => .panic
    | .collision => slow_insert_loop old key value fuel (greater_capacity new_capacity)
    | .ok buf =>
      match insert_or_fail buf key value with
      | .ok buf' => .ok ⟨buf'⟩
      | .error .NotEnoughSpace =>
          slow_insert_loop old key value fuel (greater_capacity new_capacity)
      | .error .KeyAlreadyExists => .dup ⟨buf⟩ value

/-- `NumberKeyMap::slow_insert`: run the retry loop starting from
`greater_capacity capacity`. -/
def slow_insert (m : NumberKeyMap V) (key : Nat) (value : V) (fuel : Nat) : InsertOut V :=
  slow_insert_loop m.slots key value fuel (greater_capacity m.slots.length)

/-- `NumberKeyMap::insert_first`: allocate a 1-slot buffer holding the pair. -/
def insert_first (key : Nat) (value : V) : NumberKeyMap V :=
  ⟨[some (key, value)]⟩

/-- `NumberKeyMap::insert`.  `validate_key` aborts on the sentinel key; an
unallocated map takes the `insert_first` path; otherwise the fast single-slot
probe, falling back to `slow_insert` on either failure. -/
def insert (m : NumberKeyMap V) (key : Nat) (value : V) (fuel : Nat) : InsertOut V :=
  if key = MAX_KEY then .panic
  else if m.slots.length = 0 then .ok (insert_first key value)
  else
    match insert_or_fail m.slots key value with
    | .ok buf => .ok ⟨buf⟩
    | .error _ => slow_insert m key value fuel

/-- `NumberKeyMap::get`: abort on the sentinel key, `none` on an unallocated
map, otherwise examine the single slot at `key % capacity`. -/
def get (m : NumberKeyMap V) (key : Nat) : PanicOr (Option V) :=
  if key = MAX_KEY then .panic
  else if m.slots.length = 0 then .ok none
  else
    match m.slots.getD (get_started_slot_idx_for_key key m.slots.length) none with
    | some (k, v) => if k = key then .ok (some v) else .ok none
    | none => .ok none

/-- `NumberKeyMap::get_mut`: identical probe logic to `get` (the returned
reference is modelled by the value itself). -/
def get_mut (m : NumberKeyMap V) (key : Nat) : PanicOr (Option V) :=
  if key = MAX_KEY then .panic
  else if m.slots.length = 0 then .ok none
  else
    match m.slots.getD (get_started_slot_idx_for_key key m.slots.length) none with
    | some (k, v) => if k = key then .ok (some v) else .ok none
    | none => .ok none

/-- `NumberKeyMap::remove`.  `validate_key` aborts on the sentinel key.  On an
unallocated map (`capacity = 0`) the program aborts: `key % 0` is a Rust
remainder-by-zero panic (and `get_slot_ptr` additionally asserts the buffer is
not null) — there is no null check on this path, unlike `get`.  Otherwise the
slot at `key % capacity` is examined: vacant returns `None`; an occupied slot is
marked vacant and its value returned, with no comparison of the slot key against
`key`. -/
def remove (m : NumberKeyMap V) (key : Nat) : PanicOr (Option V × NumberKeyMap V) :=
  if key = MAX_KEY then .panic
  else if m.slots.length = 0 then .panic
  else
    let idx := get_started_slot_idx_for_key key m.slots.length
    match m.slots.getD idx none with
    | none => .ok (none, m)
    | some (_, v) => .ok (some v, ⟨m.slots.set idx none⟩)

/-- `NumberKeyMap::clear_with`: pass every live entry to the callback and mark
every slot vacant; capacity is unchanged.  Returns the entries handed to the
callback (in index order) together with the cleared map. -/
def clear_with (m : NumberKeyMap V) : List (Nat × V) × NumberKeyMap V :=
  (m.slots.filterMap id, ⟨m.slots.map fun _ => none⟩)

/-- `NumberKeyMap::clear` = `clear_with(drop)`. -/
def clear (m : NumberKeyMap V) : NumberKeyMap V := (clear_with m).2

/-- The occupied-slot scan shared by `iter`, `iter_mut` and `IntoIter::next`:
walk the buffer in index order, skipping vacant slots. -/
def scan_slots : Slots V → List (Nat × V)
  | [] => []
  | none :: rest => scan_slots rest
  | some e :: rest => e :: scan_slots rest

/-- The full sequence yielded by `NumberKeyMap::iter` (keys with borrowed values). -/
def iter_list (m : NumberKeyMap V) : List (Nat × V) := scan_slots m.slots

/-- The full sequence yielded by `NumberKeyMap::iter_mut`. -/
def iter_mut_list (m : NumberKeyMap V) : List (Nat × V) := scan_slots m.slots

/-- The full sequence yielded by the consuming iterator `IntoIter`. -/
def into_iter_list (m : NumberKeyMap V) : List (Nat × V) := scan_slots m.slots

/-- `n` calls to `Drain::next` on a buffer: each call scans forward past vacant
slots and, on reaching an occupied slot, marks it vacant and yields its pair.
Returns the yielded pairs and the buffer as left behind when the iterator is
dropped after those `n` calls (`Drain` has no `Drop` glue: nothing further
happens to the buffer). -/
def drain_go : Slots V → Nat → List (Nat × V) × Slots V
  | slots, 0 => ([], slots)
  | [], _ + 1 => ([], [])
  | none :: rest, n + 1 =>
    let r := drain_go rest (n + 1)
    (r.1, none :: r.2)
  | some e :: rest, n + 1 =>
    let r := drain_go rest n
    (e :: r.1, none :: r.2)

/-- The full sequence yielded by an exhausted `NumberKeyMap::drain`. -/
def drain_list (m : NumberKeyMap V) : List (Nat × V) :=
  (drain_go m.slots m.slots.length).1

/-- Map states reachable from `NumberKeyMap::new()` by the public mutating
operations: successful or duplicate-reporting inserts, non-aborting removes,
`clear`/`clear_with`, and a `drain` abandoned (or exhausted) after `n` calls to
`next`. -/
inductive Reachable : NumberKeyMap V → Prop where
  | new : Reachable ⟨[]⟩
  | insert_ok {m m' : NumberKeyMap V} {k : Nat} {v : V} {f : Nat} :
      Reachable m → insert m k v f = .ok m' → Reachable m'
  | insert_dup {m m' : NumberKeyMap V} {k : Nat} {v w : V} {f : Nat} :
      Reachable m → insert m k v f = .dup m' w → Reachable m'
  | remove_ok {m : NumberKeyMap V} {k : Nat} {r : Option V × NumberKeyMap V} :
      Reachable m → remove m k = .ok r → Reachable r.2
  | clear_step {m : NumberKeyMap V} :
      Reachable m → Reachable (clear m)
  | drain_step {m : NumberKeyMap V} (n : Nat) :
      Reachable m → Reachable ⟨(drain_go m.slots n).2⟩

/-- A single slot is well-placed in a buffer of length `len`: vacant, or holding
a genuine (non-sentinel) key `k` stored exactly at index `k % len`. -/
def slotOk (len i : Nat) : Option (Nat × V) → Prop
  | none => True
  | some (k, _) => k ≠ MAX_KEY ∧ i = k % len

instance (len i : Nat) (o : Option (Nat × V)) : Decidable (slotOk len i o) :=
  match o with
  | none => isTrue trivial
  | some (k, _) => inferInstanceAs (Decidable (k ≠ MAX_KEY ∧ i = k % len))

/-- The single-probe invariant of a buffer: every slot is well-placed. -/
def SlotsInv (s : Slots V) : Prop :=
  ∀ i, (h : i < s.length) → slotOk s.length i (s.get ⟨i, h⟩)

instance (s : Slots V) : Decidable (SlotsInv s) :=
  Nat.decidableBallLT s.length fun i h => slotOk s.length i (s.get ⟨i, h⟩)

/-- The single-probe invariant of a map. -/
def Inv (m : NumberKeyMap V) : Prop := SlotsInv m.slots

instance (m : NumberKeyMap V) : Decidable (Inv m) :=
  inferInstanceAs (Decidable (SlotsInv m.slots))

/-- The pair `(k, v)` is stored somewhere in the buffer. -/
def MemE (s : Slots V) (k : Nat) (v : V) : Prop :=
  ∃ i : Nat, s[i]? = some (some (k, v))

/-- Every occupied slot of the buffer carries a genuine (non-sentinel) key. -/
def ValidKeys (s : Slots V) : Prop :=
  ∀ k v, some (k, v) ∈ s → k ≠ MAX_KEY

/-- Two slots never carry the same key (as a relation for `List.Pairwise`). -/
def KeyNe : Option (Nat × V) → Option (Nat × V) → Prop :=
  fun a b => ∀ k v w, a = some (k, v) → b = some (k, w) → False

/-! ### Basic bridges -/

theorem getD_eq_q (s : Slots V) (i : Nat) : s.getD i none = (s[i]?).getD none :=
  List.getD_eq_getElem?_getD s i none

theorem slotsInv_iff {s : Slots V} :
    SlotsInv s ↔ ∀ (i k : Nat) (v : V), s[i]? = some (some (k, v)) →
      k ≠ MAX_KEY ∧ i = k % s.length := by
  constructor
  · intro hinv i k v hget
    have hi : i < s.length := by
      by_contra hge
      rw [List.getElem?_eq_none (by omega)] at hget
      exact Option.noConfusion hget
    have := hinv i hi
    rw [List.getElem?_eq_getElem hi] at hget
    have hslot : s[i] = some (k, v) := Option.some.inj hget
    rw [List.get_eq_getElem, hslot] at this
    exact this
  · intro hq i hi
    rcases hslot : s.get ⟨i, hi⟩ with _ | ⟨k, v⟩
    · trivial
    · rw [List.get_eq_getElem] at hslot
      exact hq i k v (by rw [List.getElem?_eq_getElem hi, hslot])

theorem memE_iff_mem {s : Slots V} {k : Nat} {v : V} :
    MemE s k v ↔ some (k, v) ∈ s := by
  rw [List.mem_iff_getElem?]; rfl

theorem validKeys_of_inv {s : Slots V} (hinv : SlotsInv s) : ValidKeys s := by
  intro k v hmem
  rcases memE_iff_mem.mpr hmem with ⟨i, hget⟩
  exact ((slotsInv_iff.mp hinv) i k v hget).1

theorem pairwise_of_inv {s : Slots V} (hinv : SlotsInv s) : s.Pairwise KeyNe := by
  rw [List.pairwise_iff_getElem]
  intro i j hi hj hij k v w hvi hvj
  have h1 := (slotsInv_iff.mp hinv) i k v (by rw [List.getElem?_eq_getElem hi, hvi])
  have h2 := (slotsInv_iff.mp hinv) j k w (by rw [List.getElem?_eq_getElem hj, hvj])
  omega

/-! ### Vacant buffers -/

theorem vacant_length (n : Nat) : (vacant V n).length = n := List.length_replicate n none

theorem vacant_getElem? {n i : Nat} (hi : i < n) : (vacant V n)[i]? = some none := by
  simp [vacant, List.getElem?_replicate, hi]

theorem vacant_not_memE (n : Nat) (a : Nat) (b : V) : ¬ MemE (vacant V n) a b := by
  rintro ⟨i, hget⟩
  rcases Nat.lt_or_ge i n with hlt | hge
  · rw [vacant_getElem? hlt] at hget
    exact Option.noConfusion (Option.some.inj hget)
  · rw [List.getElem?_eq_none (by simpa [vacant_length] using hge)] at hget
    exact Option.noConfusion hget

theorem vacant_inv (n : Nat) : SlotsInv (vacant V n) := by
  rw [slotsInv_iff]
  intro i k v hget
  exact absurd ⟨i, hget⟩ (vacant_not_memE n k v)

/-! ### The single-slot probe `insert_or_fail` -/

theorem iof_ok_elim {s : Slots V} {k : Nat} {v : V} {s' : Slots V}
    (h : insert_or_fail s k v = .ok s') :
    s.getD (k % s.length) none = none ∧ s' = s.set (k % s.length) (some (k, v)) := by
  rcases hget : s.getD (k % s.length) none with _ | ⟨k', v'⟩
  · simp only [insert_or_fail, get_started_slot_idx_for_key, hget] at h
    exact ⟨rfl, (Except.ok.inj h).symm⟩
  · simp only [insert_or_fail, get_started_slot_idx_for_key, hget] at h
    split at h <;> exact Except.noConfusion h

theorem iof_vacant_ok {s : Slots V} {k : Nat} (v : V)
    (hget : s.getD (k % s.length) none = none) :
    insert_or_fail s k v = .ok (s.set (k % s.length) (some (k, v))) := by
  simp only [insert_or_fail, get_started_slot_idx_for_key, hget]

theorem iof_occupied {s : Slots V} {k k' : Nat} {v' : V} (v : V)
    (hget : s.getD (k % s.length) none = some (k', v')) :
    insert_or_fail s k v =
      if k = k' then .error .KeyAlreadyExists else .error .NotEnoughSpace := by
  simp only [insert_or_fail, get_started_slot_idx_for_key, hget]

theorem iof_kae_elim {s : Slots V} {k : Nat} {v : V}
    (h : insert_or_fail s k v = .error .KeyAlreadyExists) :
    ∃ v', s.getD (k % s.length) none = some (k, v') := by
  rcases hget : s.getD (k % s.length) none with _ | ⟨k', v'⟩
  · simp only [insert_or_fail, get_started_slot_idx_for_key, hget] at h
    exact Except.noConfusion h
  · refine ⟨v', ?_⟩
    rw [iof_occupied v hget] at h
    split at h
    · subst k'; rfl
    · exact absurd (Except.error.inj h) (by intro hx; exact InsertFailErr.noConfusion hx)

theorem iof_ok_length {s : Slots V} {k : Nat} {v : V} {s' : Slots V}
    (h : insert_or_fail s k v = .ok s') : s'.length = s.length := by
  rw [(iof_ok_elim h).2, List.length_set]

theorem iof_ok_get_self {s : Slots V} {k : Nat} {v : V} {s' : Slots V}
    (hlen : 0 < s.length) (h : insert_or_fail s k v = .ok s') :
    s'[k % s.length]? = some (some (k, v)) := by
  rw [(iof_ok_elim h).2, List.getElem?_set]
  simp [Nat.mod_lt k hlen]

theorem iof_ok_get_other {s : Slots V} {k : Nat} {v : V} {s' : Slots V} {j : Nat}
    (hj : j ≠ k % s.length) (h : insert_or_fail s k v = .ok s') :
    s'[j]? = s[j]? := by
  rw [(iof_ok_elim h).2, List.getElem?_set, if_neg (fun hx => hj hx.symm)]

theorem iof_ok_inv {s : Slots V} {k : Nat} {v : V} {s' : Slots V}
    (hinv : SlotsInv s) (hk : k ≠ MAX_KEY) (h : insert_or_fail s k v = .ok s') :
    SlotsInv s' := by
  rcases Nat.eq_zero_or_pos s.length with hz | hlen
  · have hnil : s = [] := List.eq_nil_of_length_eq_zero hz
    subst hnil
    have hs' : s' = [] := by
      have := (iof_ok_elim h).2
      simpa using this
    subst hs'
    intro i hi
    simp at hi
  · rw [slotsInv_iff]
    intro i a b hget
    rw [iof_ok_length h]
    rcases Decidable.em (i = k % s.length) with heq | hne
    · subst heq
      rw [iof_ok_get_self hlen h] at hget
      have hab : some (k, v) = some (a, b) := Option.some.inj hget
      cases Option.some.inj hab
      exact ⟨hk, rfl⟩
    · rw [iof_ok_get_other hne h] at hget
      exact (slotsInv_iff.mp hinv) i a b hget

theorem iof_ok_memE {s : Slots V} {k : Nat} {v : V} {s' : Slots V}
    (hlen : 0 < s.length) (h : insert_or_fail s k v = .ok s') (a : Nat) (b : V) :
    MemE s' a b ↔ (a = k ∧ b = v) ∨ MemE s a b := by
  constructor
  · rintro ⟨i, hget⟩
    rcases Decidable.em (i = k % s.length) with heq | hne
    · subst heq
      rw [iof_ok_get_self hlen h] at hget
      have hab : some (k, v) = some (a, b) := Option.some.inj hget
      cases Option.some.inj hab
      exact Or.inl ⟨rfl, rfl⟩
    · rw [iof_ok_get_other hne h] at hget
      exact Or.inr ⟨i, hget⟩
  · rintro (⟨ha, hb⟩ | ⟨i, hget⟩)
    · rw [ha, hb]
      exact ⟨k % s.length, iof_ok_get_self hlen h⟩
    · rcases Decidable.em (i = k % s.length) with heq | hne
      · subst heq
        have hnone := (iof_ok_elim h).1
        rw [getD_eq_q, hget] at hnone
        exact absurd hnone (by simp)
      · exact ⟨i, by rw [iof_ok_get_other hne h]; exact hget⟩

theorem getD_some_elim {s : Slots V} {i : Nat} {e : Nat × V}
    (h : s.getD i none = some e) : s[i]? = some (some e) := by
  rw [getD_eq_q] at h
  rcases hq : s[i]? with _ | o
  · rw [hq] at h
    exact absurd h (by simp)
  · rw [hq] at h
    simp at h
    rw [h]

theorem getElem?_some_lt {s : Slots V} {i : Nat} {o : Option (Nat × V)}
    (h : s[i]? = some o) : i < s.length := by
  by_contra hge
  rw [List.getElem?_eq_none (by omega)] at h
  exact Option.noConfusion h

/-! ### The recopy pass of `slow_insert` -/

theorem recopy_ok_length :
    ∀ (pending buf buf' : Slots V), recopy pending buf = .ok buf' →
      buf'.length = buf.length := by
  intro pending
  induction pending with
  | nil =>
    intro buf buf' h
    simp only [recopy] at h
    rw [← CopyRes.ok.inj h]
  | cons hd tl ih =>
    intro buf buf' h
    match hd with
    | none =>
      simp only [recopy] at h
      exact ih buf buf' h
    | some (k, v) =>
      rcases hior : insert_or_fail buf k v with e | buf₁
      · cases e <;> (simp only [recopy, hior] at h; exact CopyRes.noConfusion h)
      · simp only [recopy, hior] at h
        rw [ih buf₁ buf' h, iof_ok_length hior]

theorem recopy_ok_inv :
    ∀ (pending buf buf' : Slots V), ValidKeys pending → SlotsInv buf →
      recopy pending buf = .ok buf' → SlotsInv buf' := by
  intro pending
  induction pending with
  | nil =>
    intro buf buf' _ hbuf h
    simp only [recopy] at h
    rw [← CopyRes.ok.inj h]
    exact hbuf
  | cons hd tl ih =>
    intro buf buf' hval hbuf h
    have hvtl : ValidKeys tl := fun k v hm => hval k v (List.mem_cons_of_mem hd hm)
    match hd with
    | none =>
      simp only [recopy] at h
      exact ih buf buf' hvtl hbuf h
    | some (k, v) =>
      rcases hior : insert_or_fail buf k v with e | buf₁
      · cases e <;> (simp only [recopy, hior] at h; exact CopyRes.noConfusion h)
      · simp only [recopy, hior] at h
        have hk : k ≠ MAX_KEY := hval k v (List.mem_cons_self _ _)
        exact ih buf₁ buf' hvtl (iof_ok_inv hbuf hk hior) h

theorem recopy_ok_memE :
    ∀ (pending buf buf' : Slots V), 0 < buf.length →
      recopy pending buf = .ok buf' →
      ∀ (a : Nat) (b : V), MemE buf' a b ↔ MemE buf a b ∨ some (a, b) ∈ pending := by
  intro pending
  induction pending with
  | nil =>
    intro buf buf' _ h a b
    simp only [recopy] at h
    rw [← CopyRes.ok.inj h]
    simp
  | cons hd tl ih =>
    intro buf buf' hlen h a b
    match hd with
    | none =>
      simp only [recopy] at h
      rw [ih buf buf' hlen h a b]
      simp
    | some (k, v) =>
      rcases hior : insert_or_fail buf k v with e | buf₁
      · cases e <;> (simp only [recopy, hior] at h; exact CopyRes.noConfusion h)
      · simp only [recopy, hior] at h
        have hlen₁ : 0 < buf₁.length := by rw [iof_ok_length hior]; exact hlen
        rw [ih buf₁ buf' hlen₁ h a b, iof_ok_memE hlen hior a b]
        simp only [List.mem_cons, Option.some.injEq, Prod.mk.injEq]
        tauto

theorem recopy_ok_unwritten :
    ∀ (pending buf buf' : Slots V) (j : Nat),
      recopy pending buf = .ok buf' →
      (∀ (k' : Nat) (v' : V), some (k', v') ∈ pending → k' % buf.length ≠ j) →
      buf'[j]? = buf[j]? := by
  intro pending
  induction pending with
  | nil =>
    intro buf buf' j h _
    simp only [recopy] at h
    rw [← CopyRes.ok.inj h]
  | cons hd tl ih =>
    intro buf buf' j h hout
    match hd with
    | none =>
      simp only [recopy] at h
      exact ih buf buf' j h fun k' v' hm => hout k' v' (List.mem_cons_of_mem _ hm)
    | some (k, v) =>
      rcases hior : insert_or_fail buf k v with e | buf₁
      · cases e <;> (simp only [recopy, hior] at h; exact CopyRes.noConfusion h)
      · simp only [recopy, hior] at h
        have hlen₁ : buf₁.length = buf.length := iof_ok_length hior
        have h1 : buf'[j]? = buf₁[j]? := by
          refine ih buf₁ buf' j h fun k' v' hm => ?_
          rw [hlen₁]
          exact hout k' v' (List.mem_cons_of_mem _ hm)
        rw [h1]
        exact iof_ok_get_other
          (fun hx => hout k v (List.mem_cons_self _ _) hx.symm) hior

theorem recopy_no_panic :
    ∀ (pending buf : Slots V),
      List.Pairwise KeyNe pending →
      (∀ (a : Nat) (b : V), MemE buf a b → ∀ v', some (a, v') ∉ pending) →
      0 < buf.length →
      recopy pending buf ≠ .panic := by
  intro pending
  induction pending with
  | nil =>
    intro buf _ _ _ h
    simp only [recopy] at h
    exact CopyRes.noConfusion h
  | cons hd tl ih =>
    intro buf hpw hdisj hlen h
    have hpw' := List.pairwise_cons.mp hpw
    match hd with
    | none =>
      simp only [recopy] at h
      refine ih buf hpw'.2 (fun a b hm v' hmem => ?_) hlen h
      exact hdisj a b hm v' (List.mem_cons_of_mem _ hmem)
    | some (k, v) =>
      rcases hior : insert_or_fail buf k v with e | buf₁
      · cases e with
        | NotEnoughSpace =>
          simp only [recopy, hior] at h
          exact CopyRes.noConfusion h
        | KeyAlreadyExists =>
          rcases iof_kae_elim hior with ⟨v', hget⟩
          have hmemE : MemE buf k v' := ⟨k % buf.length, getD_some_elim hget⟩
          exact hdisj k v' hmemE v (List.mem_cons_self _ _)
      · simp only [recopy, hior] at h
        have hlen₁ : 0 < buf₁.length := by rw [iof_ok_length hior]; exact hlen
        refine ih buf₁ hpw'.2 (fun a b hm v' hmem => ?_) hlen₁ h
        rcases (iof_ok_memE hlen hior a b).mp hm with ⟨ha, -⟩ | hold
        · exact hpw'.1 _ (ha ▸ hmem) k v v' rfl rfl
        · exact hdisj a b hold v' (List.mem_cons_of_mem _ hmem)

theorem recopy_success_big :
    ∀ (pending buf : Slots V),
      List.Pairwise KeyNe pending →
      (∀ (k' : Nat) (v' : V), some (k', v') ∈ pending → buf[k']? = some none) →
      ∃ buf', recopy pending buf = .ok buf' := by
  intro pending
  induction pending with
  | nil =>
    intro buf _ _
    exact ⟨buf, rfl⟩
  | cons hd tl ih =>
    intro buf hpw hvac
    have hpw' := List.pairwise_cons.mp hpw
    match hd with
    | none =>
      rcases ih buf hpw'.2 (fun k' v' hm => hvac k' v' (List.mem_cons_of_mem _ hm))
        with ⟨buf', hb⟩
      exact ⟨buf', by simp only [recopy]; exact hb⟩
    | some (k, v) =>
      have hk := hvac k v (List.mem_cons_self _ _)
      have hklt : k < buf.length := getElem?_some_lt hk
      have hmod : k % buf.length = k := Nat.mod_eq_of_lt hklt
      have hgetD : buf.getD (k % buf.length) none = none := by
        rw [getD_eq_q, hmod, hk]
        rfl
      have hior := iof_vacant_ok (s := buf) (k := k) v hgetD
      have hvac' : ∀ (k' : Nat) (v' : V), some (k', v') ∈ tl →
          (buf.set (k % buf.length) (some (k, v)))[k']? = some none := by
        intro k' v' hm
        have hne : k' ≠ k := by
          intro hx
          cases hx
          exact hpw'.1 _ hm k v v' rfl rfl
        rw [List.getElem?_set, if_neg (by rw [hmod]; exact fun hx => hne hx.symm)]
        exact hvac k' v' (List.mem_cons_of_mem _ hm)
      rcases ih (buf.set (k % buf.length) (some (k, v))) hpw'.2 hvac' with ⟨buf', hb⟩
      exact ⟨buf', by simp only [recopy, hior]; exact hb⟩

/-! ### The growth policy -/

theorem gc_gt (c : Nat) : c < greater_capacity c := by
  unfold greater_capacity
  split
  · omega
  · rename_i h
    have h7 : c + 1 ≤ c * 8 / 7 := by
      rw [Nat.le_div_iff_mul_le (by omega)]
      omega
    dsimp only
    split <;> omega

theorem gc_pos (c : Nat) : 1 ≤ greater_capacity c := by
  have := gc_gt c
  omega

/-! ### The slow-insert retry loop -/

theorem loop_ok_inv :
    ∀ (f c : Nat) {old : Slots V} {k : Nat} {v : V} {m' : NumberKeyMap V},
      ValidKeys old → k ≠ MAX_KEY →
      slow_insert_loop old k v f c = .ok m' → SlotsInv m'.slots := by
  intro f
  induction f with
  | zero =>
    intro c old k v m' _ _ h
    simp only [slow_insert_loop] at h
    exact InsertOut.noConfusion h
  | succ f ih =>
    intro c old k v m' hval hk h
    rcases hrec : recopy old (vacant V c) with buf | _ | _
    · rcases hior : insert_or_fail buf k v with e | buf'
      · cases e
        · simp only [slow_insert_loop, hrec, hior] at h
          exact ih _ hval hk h
        · simp only [slow_insert_loop, hrec, hior] at h
          exact InsertOut.noConfusion h
      · simp only [slow_insert_loop, hrec, hior] at h
        rw [← InsertOut.ok.inj h]
        exact iof_ok_inv (recopy_ok_inv old _ buf hval (vacant_inv c) hrec) hk hior
    · simp only [slow_insert_loop, hrec] at h
      exact ih _ hval hk h
    · simp only [slow_insert_loop, hrec] at h
      exact InsertOut.noConfusion h

theorem loop_dup_inv :
    ∀ (f c : Nat) {old : Slots V} {k : Nat} {v w : V} {m' : NumberKeyMap V},
      ValidKeys old →
      slow_insert_loop old k v f c = .dup m' w → SlotsInv m'.slots := by
  intro f
  induction f with
  | zero =>
    intro c old k v w m' _ h
    simp only [slow_insert_loop] at h
    exact InsertOut.noConfusion h
  | succ f ih =>
    intro c old k v w m' hval h
    rcases hrec : recopy old (vacant V c) with buf | _ | _
    · rcases hior : insert_or_fail buf k v with e | buf'
      · cases e
        · simp only [slow_insert_loop, hrec, hior] at h
          exact ih _ hval h
        · simp only [slow_insert_loop, hrec, hior] at h
          rw [← (InsertOut.dup.inj h).1]
          exact recopy_ok_inv old _ buf hval (vacant_inv c) hrec
      · simp only [slow_insert_loop, hrec, hior] at h
        exact InsertOut.noConfusion h
    · simp only [slow_insert_loop, hrec] at h
      exact ih _ hval h
    · simp only [slow_insert_loop, hrec] at h
      exact InsertOut.noConfusion h

theorem loop_ok_len :
    ∀ (f c : Nat) {old : Slots V} {k : Nat} {v : V} {m' : NumberKeyMap V},
      slow_insert_loop old k v f c = .ok m' → c ≤ m'.slots.length := by
  intro f
  induction f with
  | zero =>
    intro c old k v m' h
    simp only [slow_insert_loop] at h
    exact InsertOut.noConfusion h
  | succ f ih =>
    intro c old k v m' h
    rcases hrec : recopy old (vacant V c) with buf | _ | _
    · rcases hior : insert_or_fail buf k v with e | buf'
      · cases e
        · simp only [slow_insert_loop, hrec, hior] at h
          have := ih _ h
          have := gc_gt c
          omega
        · simp only [slow_insert_loop, hrec, hior] at h
          exact InsertOut.noConfusion h
      · simp only [slow_insert_loop, hrec, hior] at h
        rw [← InsertOut.ok.inj h]
        have h1 : buf'.length = buf.length := iof_ok_length hior
        have h2 : buf.length = c := by
          rw [recopy_ok_length old _ buf hrec, vacant_length]
        simp only [h1, h2]
        exact Nat.le_refl c
    · simp only [slow_insert_loop, hrec] at h
      have := ih _ h
      have := gc_gt c
      omega
    · simp only [slow_insert_loop, hrec] at h
      exact InsertOut.noConfusion h

theorem loop_dup_len :
    ∀ (f c : Nat) {old : Slots V} {k : Nat} {v w : V} {m' : NumberKeyMap V},
      slow_insert_loop old k v f c = .dup m' w → c ≤ m'.slots.length ∧ w = v := by
  intro f
  induction f with
  | zero =>
    intro c old k v w m' h
    simp only [slow_insert_loop] at h
    exact InsertOut.noConfusion h
  | succ f ih =>
    intro c old k v w m' h
    rcases hrec : recopy old (vacant V c) with buf | _ | _
    · rcases hior : insert_or_fail buf k v with e | buf'
      · cases e
        · simp only [slow_insert_loop, hrec, hior] at h
          have h1 := ih _ h
          have h2 := gc_gt c
          exact ⟨by omega, h1.2⟩
        · simp only [slow_insert_loop, hrec, hior] at h
          have h1 := InsertOut.dup.inj h
          refine ⟨?_, h1.2.symm⟩
          rw [← h1.1]
          have h2 : buf.length = c := by
            rw [recopy_ok_length old _ buf hrec, vacant_length]
          simp only [h2]
          exact Nat.le_refl c
      · simp only [slow_insert_loop, hrec, hior] at h
        exact InsertOut.noConfusion h
    · simp only [slow_insert_loop, hrec] at h
      have h1 := ih _ h
      have h2 := gc_gt c
      exact ⟨by omega, h1.2⟩
    · simp only [slow_insert_loop, hrec] at h
      exact InsertOut.noConfusion h

theorem loop_ok_memE :
    ∀ (f c : Nat) {old : Slots V} {k : Nat} {v : V} {m' : NumberKeyMap V},
      1 ≤ c → slow_insert_loop old k v f c = .ok m' →
      ∀ (a : Nat) (b : V),
        MemE m'.slots a b ↔ (a = k ∧ b = v) ∨ some (a, b) ∈ old := by
  intro f
  induction f with
  | zero =>
    intro c old k v m' _ h
    simp only [slow_insert_loop] at h
    exact InsertOut.noConfusion h
  | succ f ih =>
    intro c old k v m' hc h a b
    rcases hrec : recopy old (vacant V c) with buf | _ | _
    · rcases hior : insert_or_fail buf k v with e | buf'
      · cases e
        · simp only [slow_insert_loop, hrec, hior] at h
          exact ih _ (gc_pos c) h a b
        · simp only [slow_insert_loop, hrec, hior] at h
          exact InsertOut.noConfusion h
      · simp only [slow_insert_loop, hrec, hior] at h
        rw [← InsertOut.ok.inj h]
        have hvlen : 0 < (vacant V c).length := by rw [vacant_length]; omega
        have hblen : 0 < buf.length := by
          rw [recopy_ok_length old _ buf hrec, vacant_length]; omega
        rw [iof_ok_memE hblen hior a b, recopy_ok_memE old _ buf hvlen hrec a b]
        have := vacant_not_memE (V := V) c a b
        tauto
    · simp only [slow_insert_loop, hrec] at h
      exact ih _ (gc_pos c) h a b
    · simp only [slow_insert_loop, hrec] at h
      exact InsertOut.noConfusion h

theorem loop_dup_memE :
    ∀ (f c : Nat) {old : Slots V} {k : Nat} {v w : V} {m' : NumberKeyMap V},
      1 ≤ c → slow_insert_loop old k v f c = .dup m' w →
      ∀ (a : Nat) (b : V), MemE m'.slots a b ↔ some (a, b) ∈ old := by
  intro f
  induction f with
  | zero =>
    intro c old k v w m' _ h
    simp only [slow_insert_loop] at h
    exact InsertOut.noConfusion h
  | succ f ih =>
    intro c old k v w m' hc h a b
    rcases hrec : recopy old (vacant V c) with buf | _ | _
    · rcases hior : insert_or_fail buf k v with e | buf'
      · cases e
        · simp only [slow_insert_loop, hrec, hior] at h
          exact ih _ (gc_pos c) h a b
        · simp only [slow_insert_loop, hrec, hior] at h
          rw [← (InsertOut.dup.inj h).1]
          have hvlen : 0 < (vacant V c).length := by rw [vacant_length]; omega
          rw [recopy_ok_memE old _ buf hvlen hrec a b]
          have := vacant_not_memE (V := V) c a b
          tauto
      · simp only [slow_insert_loop, hrec, hior] at h
        exact InsertOut.noConfusion h
    · simp only [slow_insert_loop, hrec] at h
      exact ih _ (gc_pos c) h a b
    · simp only [slow_insert_loop, hrec] at h
      exact InsertOut.noConfusion h

theorem loop_dup_oldkey :
    ∀ (f c : Nat) {old : Slots V} {k : Nat} {v w : V} {m' : NumberKeyMap V},
      1 ≤ c → slow_insert_loop old k v f c = .dup m' w →
      ∃ v', some (k, v') ∈ old := by
  intro f
  induction f with
  | zero =>
    intro c old k v w m' _ h
    simp only [slow_insert_loop] at h
    exact InsertOut.noConfusion h
  | succ f ih =>
    intro c old k v w m' hc h
    rcases hrec : recopy old (vacant V c) with buf | _ | _
    · rcases hior : insert_or_fail buf k v with e | buf'
      · cases e
        · simp only [slow_insert_loop, hrec, hior] at h
          exact ih _ (gc_pos c) h
        · rcases iof_kae_elim hior with ⟨v', hget⟩
          have hmem : MemE buf k v' := ⟨k % buf.length, getD_some_elim hget⟩
          have hvlen : 0 < (vacant V c).length := by rw [vacant_length]; omega
          rcases (recopy_ok_memE old _ buf hvlen hrec k v').mp hmem with hvac | hin
          · exact absurd hvac (vacant_not_memE c k v')
          · exact ⟨v', hin⟩
      · simp only [slow_insert_loop, hrec, hior] at h
        exact InsertOut.noConfusion h
    · simp only [slow_insert_loop, hrec] at h
      exact ih _ (gc_pos c) h
    · simp only [slow_insert_loop, hrec] at h
      exact InsertOut.noConfusion h

theorem loop_ok_fresh :
    ∀ (f c : Nat) {old : Slots V} {k : Nat} {v : V} {m' : NumberKeyMap V},
      ValidKeys old → 1 ≤ c → slow_insert_loop old k v f c = .ok m' →
      ∀ v', some (k, v') ∉ old := by
  intro f
  induction f with
  | zero =>
    intro c old k v m' _ _ h
    simp only [slow_insert_loop] at h
    exact InsertOut.noConfusion h
  | succ f ih =>
    intro c old k v m' hval hc h v' hin
    rcases hrec : recopy old (vacant V c) with buf | _ | _
    · rcases hior : insert_or_fail buf k v with e | buf'
      · cases e
        · simp only [slow_insert_loop, hrec, hior] at h
          exact ih _ hval (gc_pos c) h v' hin
        · simp only [slow_insert_loop, hrec, hior] at h
          exact InsertOut.noConfusion h
      · have hvlen : 0 < (vacant V c).length := by rw [vacant_length]; omega
        have hmem : MemE buf k v' :=
          (recopy_ok_memE old _ buf hvlen hrec k v').mpr (Or.inr hin)
        have hinv : SlotsInv buf := recopy_ok_inv old _ buf hval (vacant_inv c) hrec
        rcases hmem with ⟨i, hi⟩
        have hpos := (slotsInv_iff.mp hinv) i k v' hi
        have hnone := (iof_ok_elim hior).1
        rw [getD_eq_q, ← hpos.2, hi] at hnone
        exact Option.noConfusion hnone
    · simp only [slow_insert_loop, hrec] at h
      exact ih _ hval (gc_pos c) h v' hin
    · simp only [slow_insert_loop, hrec] at h
      exact InsertOut.noConfusion h

/-! ### Termination of the retry loop -/

theorem loop_big_success {old : Slots V} {k : Nat} {v : V} {c : Nat}
    (hpw : List.Pairwise KeyNe old) (hval : ValidKeys old)
    (hb : ∀ (k' : Nat) (v' : V), some (k', v') ∈ old → k' < c) (hk : k < c) (f : Nat) :
    ∃ m', slow_insert_loop old k v (f + 1) c = .ok m' ∨
      slow_insert_loop old k v (f + 1) c = .dup m' v := by
  have hvac : ∀ (k' : Nat) (v' : V), some (k', v') ∈ old → (vacant V c)[k']? = some none :=
    fun k' v' hm => vacant_getElem? (hb k' v' hm)
  rcases recopy_success_big old (vacant V c) hpw hvac with ⟨buf, hrec⟩
  have hbuflen : buf.length = c := by
    rw [recopy_ok_length old _ buf hrec, vacant_length]
  have hkmod : k % buf.length = k := by
    rw [hbuflen]
    exact Nat.mod_eq_of_lt hk
  by_cases hin : ∃ v', some (k, v') ∈ old
  · rcases hin with ⟨v', hin⟩
    have hvlen : 0 < (vacant V c).length := by rw [vacant_length]; omega
    have hmem : MemE buf k v' :=
      (recopy_ok_memE old _ buf hvlen hrec k v').mpr (Or.inr hin)
    have hinv : SlotsInv buf := recopy_ok_inv old _ buf hval (vacant_inv c) hrec
    rcases hmem with ⟨i, hi⟩
    have hpos := (slotsInv_iff.mp hinv) i k v' hi
    have hgetD : buf.getD (k % buf.length) none = some (k, v') := by
      rw [getD_eq_q, ← hpos.2, hi]
      rfl
    have hior : insert_or_fail buf k v = .error .KeyAlreadyExists := by
      rw [iof_occupied v hgetD, if_pos rfl]
    exact ⟨⟨buf⟩, Or.inr (by simp only [slow_insert_loop, hrec, hior])⟩
  · have hunwr : buf[k]? = (vacant V c)[k]? := by
      refine recopy_ok_unwritten old _ buf k hrec fun k' v' hm => ?_
      rw [vacant_length]
      have hklt' := hb k' v' hm
      rw [Nat.mod_eq_of_lt hklt']
      intro hx
      exact hin ⟨v', hx ▸ hm⟩
    have hgetD : buf.getD (k % buf.length) none = none := by
      rw [getD_eq_q, hkmod, hunwr, vacant_getElem? hk]
      rfl
    have hior := iof_vacant_ok (s := buf) (k := k) v hgetD
    exact ⟨⟨buf.set (k % buf.length) (some (k, v))⟩,
      Or.inl (by simp only [slow_insert_loop, hrec, hior])⟩

theorem loop_term {old : Slots V} {k : Nat} {v : V}
    (hpw : List.Pairwise KeyNe old) (hval : ValidKeys old) (B : Nat)
    (hb : ∀ (k' : Nat) (v' : V), some (k', v') ∈ old → k' < B) (hk : k < B) :
    ∀ (d c : Nat), 1 ≤ c → B ≤ c + d →
      ∃ f m', slow_insert_loop old k v f c = .ok m' ∨
        slow_insert_loop old k v f c = .dup m' v := by
  intro d
  induction d with
  | zero =>
    intro c _ hbc
    have hBc : B ≤ c := by omega
    rcases loop_big_success hpw hval
        (fun k' v' hm => Nat.lt_of_lt_of_le (hb k' v' hm) hBc)
        (Nat.lt_of_lt_of_le hk hBc) 0 with ⟨m', hm'⟩
    exact ⟨1, m', hm'⟩
  | succ d ih =>
    intro c hc hbc
    rcases Nat.lt_or_ge c B with hlt | hge
    · rcases hrec : recopy old (vacant V c) with buf | _ | _
      · rcases hior : insert_or_fail buf k v with e | buf'
        · cases e
          · have hgc := gc_gt c
            rcases ih (greater_capacity c) (gc_pos c) (by omega) with ⟨f, m', hf⟩
            refine ⟨f + 1, m', ?_⟩
            simp only [slow_insert_loop, hrec, hior]
            exact hf
          · exact ⟨1, ⟨buf⟩, Or.inr (by simp only [slow_insert_loop, hrec, hior])⟩
        · exact ⟨1, ⟨buf'⟩, Or.inl (by simp only [slow_insert_loop, hrec, hior])⟩
      · have hgc := gc_gt c
        rcases ih (greater_capacity c) (gc_pos c) (by omega) with ⟨f, m', hf⟩
        refine ⟨f + 1, m', ?_⟩
        simp only [slow_insert_loop, hrec]
        exact hf
      · exact absurd hrec (recopy_no_panic old _ hpw
          (fun a b hm => (vacant_not_memE c a b hm).elim) (by rw [vacant_length]; omega))
    · rcases loop_big_success hpw hval
        (fun k' v' hm => Nat.lt_of_lt_of_le (hb k' v' hm) hge)
        (Nat.lt_of_lt_of_le hk hge) 0 with ⟨m', hm'⟩
      exact ⟨1, m', hm'⟩

/-! ### Characterizing `get` -/

theorem get_of_slot {m : NumberKeyMap V} {k : Nat} {v : V} (hk : k ≠ MAX_KEY)
    (hslot : m.slots[k % m.slots.length]? = some (some (k, v))) :
    get m k = .ok (some v) := by
  have hlt := getElem?_some_lt hslot
  have hlen : ¬ m.slots.length = 0 := by omega
  simp only [get, get_started_slot_idx_for_key, if_neg hk, if_neg hlen]
  rw [getD_eq_q, hslot]
  simp

theorem get_of_vacant {m : NumberKeyMap V} {k : Nat} (hk : k ≠ MAX_KEY)
    (hslot : m.slots[k % m.slots.length]? = some none) :
    get m k = .ok none := by
  have hlt := getElem?_some_lt hslot
  have hlen : ¬ m.slots.length = 0 := by omega
  simp only [get, get_started_slot_idx_for_key, if_neg hk, if_neg hlen]
  rw [getD_eq_q, hslot]
  rfl

theorem get_of_other {m : NumberKeyMap V} {k k' : Nat} {v' : V} (hk : k ≠ MAX_KEY)
    (hslot : m.slots[k % m.slots.length]? = some (some (k', v'))) (hne : k' ≠ k) :
    get m k = .ok none := by
  have hlt := getElem?_some_lt hslot
  have hlen : ¬ m.slots.length = 0 := by omega
  simp only [get, get_started_slot_idx_for_key, if_neg hk, if_neg hlen]
  rw [getD_eq_q, hslot]
  simp [hne]

theorem get_some_elim {m : NumberKeyMap V} {k : Nat} {v : V}
    (h : get m k = .ok (some v)) :
    k ≠ MAX_KEY ∧ 0 < m.slots.length ∧
      m.slots[k % m.slots.length]? = some (some (k, v)) := by
  by_cases hk : k = MAX_KEY
  · simp only [get, if_pos hk] at h
    exact PanicOr.noConfusion h
  · refine ⟨hk, ?_⟩
    by_cases hlen : m.slots.length = 0
    · simp only [get, if_neg hk, if_pos hlen] at h
      exact absurd (PanicOr.ok.inj h) (by simp)
    · refine ⟨Nat.pos_of_ne_zero hlen, ?_⟩
      rcases hget : m.slots.getD (k % m.slots.length) none with _ | ⟨k', v'⟩
      · simp only [get, get_started_slot_idx_for_key, if_neg hk, if_neg hlen, hget] at h
        exact absurd (PanicOr.ok.inj h) (by simp)
      · simp only [get, get_started_slot_idx_for_key, if_neg hk, if_neg hlen, hget] at h
        by_cases hkk : k' = k
        · rw [if_pos hkk] at h
          have hv := Option.some.inj (PanicOr.ok.inj h)
          subst hkk
          rw [hv] at hget
          exact getD_some_elim hget
        · rw [if_neg hkk] at h
          exact absurd (PanicOr.ok.inj h) (by simp)

theorem inv_mem_get {m : NumberKeyMap V} {k : Nat} {v : V}
    (hinv : Inv m) (hmem : MemE m.slots k v) : get m k = .ok (some v) := by
  rcases hmem with ⟨i, hi⟩
  have hpos := (slotsInv_iff.mp hinv) i k v hi
  exact get_of_slot hpos.1 (hpos.2 ▸ hi)

theorem inv_mem_unique {s : Slots V} (hinv : SlotsInv s) {k : Nat} {v w : V}
    (hv : MemE s k v) (hw : MemE s k w) : v = w := by
  rcases hv with ⟨i, hi⟩
  rcases hw with ⟨j, hj⟩
  have hpi := (slotsInv_iff.mp hinv) i k v hi
  have hpj := (slotsInv_iff.mp hinv) j k w hj
  rw [hpi.2, ← hpj.2] at hi
  rw [hi] at hj
  exact congrArg Prod.snd (Option.some.inj (Option.some.inj hj))

/-! ### Bounds on the keys of a buffer -/

theorem maxKeyFrom_base (l : List (Nat × V)) (k : Nat) :
    k ≤ l.foldr (fun e m => max e.1 m) k := by
  induction l with
  | nil => exact Nat.le_refl k
  | cons hd tl ih => exact Nat.le_trans ih (Nat.le_max_right _ _)

theorem maxKeyFrom_mem {l : List (Nat × V)} {e : Nat × V} (k : Nat) (he : e ∈ l) :
    e.1 ≤ l.foldr (fun e m => max e.1 m) k := by
  induction l with
  | nil => exact absurd he (List.not_mem_nil e)
  | cons hd tl ih =>
    rcases List.mem_cons.mp he with heq | htl
    · rw [heq]
      exact Nat.le_max_left _ _
    · exact Nat.le_trans (ih htl) (Nat.le_max_right _ _)

theorem scan_slots_mem {s : Slots V} {e : Nat × V} :
    e ∈ scan_slots s ↔ some e ∈ s := by
  induction s with
  | nil => simp [scan_slots]
  | cons hd tl ih =>
    match hd with
    | none => simp only [scan_slots, List.mem_cons]; rw [ih]; simp
    | some x => simp only [scan_slots, List.mem_cons]; rw [ih]; simp

/-! ### The public `insert` -/

theorem insert_first_inv {k : Nat} {v : V} (hk : k ≠ MAX_KEY) :
    SlotsInv ([some (k, v)] : Slots V) := by
  rw [slotsInv_iff]
  intro i a b hget
  have hi : i < 1 := by simpa using getElem?_some_lt hget
  have hi0 : i = 0 := by omega
  subst hi0
  simp at hget
  rcases hget with ⟨ha, hb⟩
  constructor
  · rw [← ha]
    exact hk
  · exact (Nat.mod_one a).symm

theorem memE_singleton {k a : Nat} {v b : V} :
    MemE ([some (k, v)] : Slots V) a b ↔ a = k ∧ b = v := by
  constructor
  · rintro ⟨i, hi⟩
    have h1 : i < 1 := by simpa using getElem?_some_lt hi
    have hi0 : i = 0 := by omega
    subst hi0
    simp at hi
    exact ⟨hi.1.symm, hi.2.symm⟩
  · rintro ⟨ha, hb⟩
    exact ⟨0, by simp [ha, hb]⟩

theorem insert_ok_inv {m m' : NumberKeyMap V} {k : Nat} {v : V} {f : Nat}
    (hinv : Inv m) (h : insert m k v f = .ok m') : Inv m' := by
  by_cases hk : k = MAX_KEY
  · simp only [insert, if_pos hk] at h
    exact InsertOut.noConfusion h
  · by_cases hlen : m.slots.length = 0
    · simp only [insert, if_neg hk, if_pos hlen] at h
      rw [← InsertOut.ok.inj h]
      exact insert_first_inv hk
    · simp only [insert, if_neg hk, if_neg hlen] at h
      rcases hior : insert_or_fail m.slots k v with e | buf
      · simp only [hior] at h
        exact loop_ok_inv f _ (validKeys_of_inv hinv) hk h
      · simp only [hior] at h
        rw [← InsertOut.ok.inj h]
        exact iof_ok_inv hinv hk hior

theorem insert_ok_memE {m m' : NumberKeyMap V} {k : Nat} {v : V} {f : Nat}
    (h : insert m k v f = .ok m') (a : Nat) (b : V) :
    MemE m'.slots a b ↔ (a = k ∧ b = v) ∨ MemE m.slots a b := by
  by_cases hk : k = MAX_KEY
  · simp only [insert, if_pos hk] at h
    exact InsertOut.noConfusion h
  · by_cases hlen : m.slots.length = 0
    · simp only [insert, if_neg hk, if_pos hlen] at h
      rw [← InsertOut.ok.inj h]
      have hnil : m.slots = [] := List.eq_nil_of_length_eq_zero hlen
      rw [insert_first, memE_singleton, hnil]
      have : ¬ MemE ([] : Slots V) a b := by rintro ⟨i, hi⟩; simp at hi
      tauto
    · simp only [insert, if_neg hk, if_neg hlen] at h
      rcases hior : insert_or_fail m.slots k v with e | buf
      · simp only [hior] at h
        rw [loop_ok_memE f _ (gc_pos _) h a b, memE_iff_mem]
      · simp only [hior] at h
        rw [← InsertOut.ok.inj h]
        exact iof_ok_memE (Nat.pos_of_ne_zero hlen) hior a b

theorem insert_dup_elim {m m' : NumberKeyMap V} {k : Nat} {v w : V} {f : Nat}
    (h : insert m k v f = .dup m' w) :
    k ≠ MAX_KEY ∧ m.slots.length ≠ 0 ∧
      slow_insert_loop m.slots k v f (greater_capacity m.slots.length) = .dup m' w := by
  by_cases hk : k = MAX_KEY
  · simp only [insert, if_pos hk] at h
    exact InsertOut.noConfusion h
  · by_cases hlen : m.slots.length = 0
    · simp only [insert, if_neg hk, if_pos hlen] at h
      exact InsertOut.noConfusion h
    · refine ⟨hk, hlen, ?_⟩
      simp only [insert, if_neg hk, if_neg hlen] at h
      rcases hior : insert_or_fail m.slots k v with e | buf
      · simp only [hior] at h
        exact h
      · simp only [hior] at h
        exact InsertOut.noConfusion h

theorem insert_dup_len {m m' : NumberKeyMap V} {k : Nat} {v w : V} {f : Nat}
    (h : insert m k v f = .dup m' w) :
    m.slots.length < m'.slots.length ∧ w = v := by
  rcases insert_dup_elim h with ⟨-, -, hloop⟩
  have h1 := loop_dup_len f _ hloop
  have h2 := gc_gt m.slots.length
  exact ⟨by omega, h1.2⟩

theorem insert_dup_inv {m m' : NumberKeyMap V} {k : Nat} {v w : V} {f : Nat}
    (hinv : Inv m) (h : insert m k v f = .dup m' w) : Inv m' := by
  rcases insert_dup_elim h with ⟨-, -, hloop⟩
  exact loop_dup_inv f _ (validKeys_of_inv hinv) hloop

theorem insert_dup_memE {m m' : NumberKeyMap V} {k : Nat} {v w : V} {f : Nat}
    (h : insert m k v f = .dup m' w) (a : Nat) (b : V) :
    MemE m'.slots a b ↔ MemE m.slots a b := by
  rcases insert_dup_elim h with ⟨-, -, hloop⟩
  rw [loop_dup_memE f _ (gc_pos _) hloop a b, memE_iff_mem]

theorem insert_fresh_ok {m : NumberKeyMap V} {k : Nat} (v : V)
    (hinv : Inv m) (hk : k ≠ MAX_KEY) (hfresh : ∀ v', ¬ MemE m.slots k v') :
    ∃ f m', insert m k v f = .ok m' := by
  by_cases hlen : m.slots.length = 0
  · exact ⟨0, insert_first k v, by simp only [insert, if_neg hk, if_pos hlen]⟩
  · rcases hior : insert_or_fail m.slots k v with e | buf
    · have hbk : k < (scan_slots m.slots).foldr (fun e m => max e.1 m) k + 1 := by
        have := maxKeyFrom_base (scan_slots m.slots) k
        omega
      have hbold : ∀ (k' : Nat) (v' : V), some (k', v') ∈ m.slots →
          k' < (scan_slots m.slots).foldr (fun e m => max e.1 m) k + 1 := by
        intro k' v' hm
        have h1 : k' ≤ (scan_slots m.slots).foldr (fun e m => max e.1 m) k :=
          maxKeyFrom_mem k (scan_slots_mem.mpr hm)
        omega
      rcases loop_term (pairwise_of_inv hinv) (validKeys_of_inv hinv) _ hbold hbk
          ((scan_slots m.slots).foldr (fun e m => max e.1 m) k + 1)
          (greater_capacity m.slots.length) (gc_pos _) (by omega)
        with ⟨f, m', hm'⟩
      rcases hm' with hok | hdup
      · exact ⟨f, m', by simp only [insert, if_neg hk, if_neg hlen, hior]; exact hok⟩
      · rcases loop_dup_oldkey f _ (gc_pos _) hdup with ⟨v', hin⟩
        exact absurd ⟨_, (List.mem_iff_getElem?.mp hin).choose_spec⟩ (hfresh v')
    · exact ⟨0, ⟨buf⟩, by simp only [insert, if_neg hk, if_neg hlen, hior]⟩

theorem insert_dup_exists {m : NumberKeyMap V} {k : Nat} {v : V} (w : V)
    (hinv : Inv m) (hlive : get m k = .ok (some v)) :
    ∃ f m', insert m k w f = .dup m' w := by
  rcases get_some_elim hlive with ⟨hk, hlen0, hslot⟩
  have hlen : ¬ m.slots.length = 0 := by omega
  have hgetD : m.slots.getD (k % m.slots.length) none = some (k, v) := by
    rw [getD_eq_q, hslot]
    rfl
  have hior : insert_or_fail m.slots k w = .error .KeyAlreadyExists := by
    rw [iof_occupied w hgetD, if_pos rfl]
  have hbk : k < (scan_slots m.slots).foldr (fun e m => max e.1 m) k + 1 := by
    have := maxKeyFrom_base (scan_slots m.slots) k
    omega
  have hbold : ∀ (k' : Nat) (v' : V), some (k', v') ∈ m.slots →
      k' < (scan_slots m.slots).foldr (fun e m => max e.1 m) k + 1 := by
    intro k' v' hm
    have h1 : k' ≤ (scan_slots m.slots).foldr (fun e m => max e.1 m) k :=
      maxKeyFrom_mem k (scan_slots_mem.mpr hm)
    omega
  rcases loop_term (v := w) (pairwise_of_inv hinv) (validKeys_of_inv hinv) _ hbold hbk
      ((scan_slots m.slots).foldr (fun e m => max e.1 m) k + 1)
      (greater_capacity m.slots.length) (gc_pos _) (by omega)
    with ⟨f, m', hm'⟩
  rcases hm' with hok | hdup
  · have hnomem := loop_ok_fresh f _ (validKeys_of_inv hinv) (gc_pos _) hok v
    exact absurd (List.getElem?_mem hslot) hnomem
  · exact ⟨f, m', by simp only [insert, if_neg hk, if_neg hlen, hior]; exact hdup⟩

/-! ### Drain -/

theorem drain_go_length (s : Slots V) : ∀ n, ((drain_go s n).2).length = s.length := by
  induction s with
  | nil => intro n; cases n <;> rfl
  | cons hd tl ih =>
    intro n
    match n with
    | 0 => simp only [drain_go]
    | n + 1 =>
      match hd with
      | none =>
        simp only [drain_go, List.length_cons]
        rw [ih (n + 1)]
      | some e =>
        simp only [drain_go, List.length_cons]
        rw [ih n]

theorem drain_go_sub (s : Slots V) :
    ∀ (n i : Nat), ((drain_go s n).2)[i]? = some none ∨
      ((drain_go s n).2)[i]? = s[i]? := by
  induction s with
  | nil =>
    intro n i
    cases n <;> exact Or.inr rfl
  | cons hd tl ih =>
    intro n i
    match n with
    | 0 => simp [drain_go]
    | n + 1 =>
      match hd with
      | none =>
        simp only [drain_go]
        match i with
        | 0 => exact Or.inl (by simp)
        | i + 1 =>
          simp only [List.getElem?_cons_succ]
          exact ih (n + 1) i
      | some e =>
        simp only [drain_go]
        match i with
        | 0 => exact Or.inl (by simp)
        | i + 1 =>
          simp only [List.getElem?_cons_succ]
          exact ih n i

theorem drain_go_yielded (s : Slots V) :
    ∀ (n : Nat) {e : Nat × V}, e ∈ (drain_go s n).1 →
      ∃ i : Nat, s[i]? = some (some e) ∧ ((drain_go s n).2)[i]? = some none := by
  induction s with
  | nil =>
    intro n e hmem
    cases n <;> simp [drain_go] at hmem
  | cons hd tl ih =>
    intro n e hmem
    match n with
    | 0 => simp [drain_go] at hmem
    | n + 1 =>
      match hd with
      | none =>
        simp only [drain_go] at hmem ⊢
        rcases ih (n + 1) hmem with ⟨i, h1, h2⟩
        exact ⟨i + 1, by simpa using h1, by simpa using h2⟩
      | some e₀ =>
        simp only [drain_go, List.mem_cons] at hmem ⊢
        rcases hmem with heq | hmem
        · exact ⟨0, by simp [heq], by simp⟩
        · rcases ih n hmem with ⟨i, h1, h2⟩
          exact ⟨i + 1, by simpa using h1, by simpa using h2⟩

theorem drain_go_kept (s : Slots V) :
    ∀ (n i : Nat) {e : Nat × V}, s[i]? = some (some e) →
      e ∉ (drain_go s n).1 → ((drain_go s n).2)[i]? = some (some e) := by
  induction s with
  | nil =>
    intro n i e hget _
    rw [List.getElem?_nil] at hget
    exact Option.noConfusion hget
  | cons hd tl ih =>
    intro n i e hget hnot
    match n with
    | 0 => simp only [drain_go]; exact hget
    | n + 1 =>
      match hd with
      | none =>
        simp only [drain_go] at hnot ⊢
        match i with
        | 0 =>
          simp at hget
        | i + 1 =>
          simp only [List.getElem?_cons_succ] at hget ⊢
          exact ih (n + 1) i hget hnot
      | some e₀ =>
        simp only [drain_go, List.mem_cons] at hnot ⊢
        match i with
        | 0 =>
          simp only [List.getElem?_cons_zero] at hget
          have he : e₀ = e := Option.some.inj (Option.some.inj hget)
          exact absurd (Or.inl he.symm) hnot
        | i + 1 =>
          simp only [List.getElem?_cons_succ] at hget ⊢
          exact ih n i hget fun hx => hnot (Or.inr hx)

theorem drain_inv {m : NumberKeyMap V} (hinv : Inv m) (n : Nat) :
    Inv (⟨(drain_go m.slots n).2⟩ : NumberKeyMap V) := by
  rw [Inv, slotsInv_iff]
  intro i a b hget
  simp only at hget ⊢
  rw [drain_go_length]
  rcases drain_go_sub m.slots n i with hnone | hsame
  · rw [hnone] at hget
    exact Option.noConfusion (Option.some.inj hget)
  · rw [hsame] at hget
    exact (slotsInv_iff.mp hinv) i a b hget

/-! ### Remove and clear -/

theorem set_none_inv {s : Slots V} (hinv : SlotsInv s) (i : Nat) :
    SlotsInv (s.set i none) := by
  rw [slotsInv_iff]
  intro j a b hget
  rw [List.length_set]
  rw [List.getElem?_set] at hget
  split at hget
  · split at hget
    · exact Option.noConfusion (Option.some.inj hget)
    · exact Option.noConfusion hget
  · exact (slotsInv_iff.mp hinv) j a b hget

theorem remove_ok_inv {m : NumberKeyMap V} {k : Nat} {r : Option V × NumberKeyMap V}
    (hinv : Inv m) (h : remove m k = .ok r) : Inv r.2 := by
  by_cases hk : k = MAX_KEY
  · simp only [remove, if_pos hk] at h
    exact PanicOr.noConfusion h
  · by_cases hlen : m.slots.length = 0
    · simp only [remove, if_neg hk, if_pos hlen] at h
      exact PanicOr.noConfusion h
    · simp only [remove, get_started_slot_idx_for_key, if_neg hk, if_neg hlen] at h
      rcases hget : m.slots.getD (k % m.slots.length) none with _ | ⟨k', v'⟩
      · simp only [hget] at h
        rw [← PanicOr.ok.inj h]
        exact hinv
      · simp only [hget] at h
        rw [← PanicOr.ok.inj h]
        exact set_none_inv hinv _

theorem clear_inv (m : NumberKeyMap V) : Inv (clear m) := by
  rw [Inv, slotsInv_iff]
  intro i a b hget
  simp only [clear, clear_with, List.getElem?_map] at hget
  rcases hq : m.slots[i]? with _ | o
  · rw [hq] at hget
    exact Option.noConfusion hget
  · rw [hq] at hget
    simp at hget

/-! ### The reachability invariant -/

theorem reachable_inv {m : NumberKeyMap V} (h : Reachable m) : Inv m := by
  induction h with
  | new =>
    intro i hi
    simp at hi
  | insert_ok _ hins ih => exact insert_ok_inv ih hins
  | insert_dup _ hins ih => exact insert_dup_inv ih hins
  | remove_ok _ hrem ih => exact remove_ok_inv ih hrem
  | clear_step _ ih => exact clear_inv _
  | drain_step n _ ih => exact drain_inv ih n

/-! ### Sequences of successful inserts -/

/-- A sequence of `insert` calls, each returning `Ok(())`. -/
inductive InsertRun : NumberKeyMap V → List (Nat × V) → NumberKeyMap V → Prop where
  | nil {m : NumberKeyMap V} : InsertRun m [] m
  | cons {m m₁ m₂ : NumberKeyMap V} {p : Nat × V} {ps : List (Nat × V)} {f : Nat} :
      insert m p.1 p.2 f = .ok m₁ → InsertRun m₁ ps m₂ → InsertRun m (p :: ps) m₂

theorem run_inv {m m₂ : NumberKeyMap V} {ps : List (Nat × V)}
    (hrun : InsertRun m ps m₂) (hinv : Inv m) : Inv m₂ := by
  induction hrun with
  | nil => exact hinv
  | cons hins _ ih => exact ih (insert_ok_inv hinv hins)

theorem run_memE {m m₂ : NumberKeyMap V} {ps : List (Nat × V)}
    (hrun : InsertRun m ps m₂) (a : Nat) (b : V) :
    MemE m₂.slots a b ↔ MemE m.slots a b ∨ (a, b) ∈ ps := by
  induction hrun with
  | nil => simp
  | @cons m m₁ _ p ps _ hins _ ih =>
    rw [ih, insert_ok_memE hins a b, List.mem_cons]
    have hp : ((a, b) = p) ↔ (a = p.1 ∧ b = p.2) := by
      rw [Prod.ext_iff]
    tauto

theorem run_exists {ps : List (Nat × V)} :
    ∀ {m : NumberKeyMap V}, Inv m → (ps.map Prod.fst).Nodup →
      (∀ p ∈ ps, p.1 ≠ MAX_KEY) →
      (∀ p ∈ ps, ∀ v', ¬ MemE m.slots p.1 v') →
      ∃ m₂, InsertRun m ps m₂ := by
  induction ps with
  | nil => intro m _ _ _ _; exact ⟨m, .nil⟩
  | cons p ps ih =>
    intro m hinv hnd hval hfresh
    rcases insert_fresh_ok p.2 hinv (hval p (List.mem_cons_self _ _))
        (hfresh p (List.mem_cons_self _ _)) with ⟨f, m₁, hok⟩
    have hnd' : p.1 ∉ ps.map Prod.fst ∧ (ps.map Prod.fst).Nodup := by
      simpa using hnd
    have hfresh' : ∀ q ∈ ps, ∀ v', ¬ MemE m₁.slots q.1 v' := by
      intro q hq v' hmem
      rcases (insert_ok_memE hok q.1 v').mp hmem with ⟨hq1, -⟩ | hold
      · exact hnd'.1 (hq1 ▸ List.mem_map_of_mem Prod.fst hq)
      · exact hfresh q (List.mem_cons_of_mem _ hq) v' hold
    rcases ih (insert_ok_inv hinv hok) hnd'.2
        (fun q hq => hval q (List.mem_cons_of_mem _ hq)) hfresh' with ⟨m₂, hrun⟩
    exact ⟨m₂, .cons hok hrun⟩

/-! ### Parity facts about `isPowerOfTwo` -/

theorem pow2_even {n : Nat} (h2 : 2 ≤ n) (hp : isPowerOfTwo n = true) : n % 2 = 0 := by
  match n, h2 with
  | m + 2, _ =>
    simp only [isPowerOfTwo, Bool.and_eq_true, decide_eq_true_eq] at hp
    exact hp.1

theorem pow2_odd_false {n : Nat} (h2 : 2 ≤ n) (hodd : n % 2 = 1) :
    isPowerOfTwo n = false := by
  match n, h2 with
  | m + 2, _ =>
    simp only [isPowerOfTwo, Bool.and_eq_false_iff, decide_eq_false_iff_not]
    left
    omega

/-! ### Concrete reachable states -/

/-- The two-entry reachable map {1 ↦ 10, 2 ↦ 20} at capacity 4 (the state after
inserting keys 1 then 2 into a new map: the second insert collides at capacity 1
and resizes to 4). -/
def M2 : NumberKeyMap Nat := ⟨[none, some (1, 10), some (2, 20), none]⟩

theorem reachable_M2 : Reachable M2 := by
  have h1 : insert (⟨[]⟩ : NumberKeyMap Nat) 1 10 0 = .ok ⟨[some (1, 10)]⟩ := by decide
  have h2 : insert (⟨[some (1, 10)]⟩ : NumberKeyMap Nat) 2 20 1 = .ok M2 := by decide
  exact .insert_ok (.insert_ok .new h1) h2

theorem reachable_M1 : Reachable (⟨[some (1, 0)]⟩ : NumberKeyMap Nat) := by
  have h1 : insert (⟨[]⟩ : NumberKeyMap Nat) 1 0 0 = .ok ⟨[some (1, 0)]⟩ := by decide
  exact .insert_ok .new h1

/-! ### Claim theorems -/

/-- C1: Single-probe invariant.  In every map state reachable by any sequence of
public operations (insert, remove, clear, clear_with, drain) starting from a new
map, every live key `k` is stored exactly at slot index `k % capacity`, no
second slot holds `k`, and `get k` finds every live entry's value by examining
only that one computed slot. -/
theorem C1_single_probe_invariant {V : Type} (m : NumberKeyMap V) (hr : Reachable m) :
    (∀ (i k : Nat) (v : V), m.slots[i]? = some (some (k, v)) →
       k ≠ MAX_KEY ∧ i = k % m.slots.length) ∧
    (∀ (i j k : Nat) (v w : V), m.slots[i]? = some (some (k, v)) →
       m.slots[j]? = some (some (k, w)) → i = j) ∧
    (∀ (k : Nat) (v : V), MemE m.slots k v → get m k = .ok (some v)) := by
  have hinv := reachable_inv hr
  refine ⟨slotsInv_iff.mp hinv, ?_, fun k v hm => inv_mem_get hinv hm⟩
  intro i j k v w hi hj
  have h1 := (slotsInv_iff.mp hinv) i k v hi
  have h2 := (slotsInv_iff.mp hinv) j k w hj
  omega

/-- Witness for C1, at the concrete reachable state `M2`. -/
theorem C1_witness :
    (∀ (i k v : Nat), M2.slots[i]? = some (some (k, v)) →
       k ≠ MAX_KEY ∧ i = k % M2.slots.length) ∧
    (∀ (i j k v w : Nat), M2.slots[i]? = some (some (k, v)) →
       M2.slots[j]? = some (some (k, w)) → i = j) ∧
    (∀ (k v : Nat), MemE M2.slots k v → get M2 k = .ok (some v)) :=
  C1_single_probe_invariant M2 reachable_M2

/-- C2 (code bug): `remove` never compares the occupant's key with the requested
key.  On the reachable map `M2` = {1 ↦ 10, 2 ↦ 20} (capacity 4) the key 5 is
absent (`get 5` is none), yet `remove 5` probes slot 5 % 4 = 1, evicts key 1's
entry and returns its value — instead of returning "absent" and leaving the map
unchanged, as both the spec and `remove`'s own documentation describe. -/
theorem C2_remove_wrong_key_evicts :
    Reachable M2 ∧ get M2 5 = .ok none ∧
      remove M2 5 = .ok (some 10, ⟨[none, none, some (2, 20), none]⟩) :=
  ⟨reachable_M2, by decide, by decide⟩

/-- C3: Round-trip.  For every sequence of inserts with pairwise-distinct
non-sentinel keys starting from a new map, the whole sequence succeeds, and in
the resulting state `get k` returns the value inserted under `k` (with distinct
keys, the value most recently inserted under `k`), for every inserted pair. -/
theorem C3_round_trip {V : Type} (ps : List (Nat × V))
    (hnd : (ps.map Prod.fst).Nodup) (hval : ∀ p ∈ ps, p.1 ≠ MAX_KEY) :
    (∃ m', InsertRun ⟨[]⟩ ps m') ∧
    ∀ m', InsertRun ⟨[]⟩ ps m' → ∀ p ∈ ps, get m' p.1 = .ok (some p.2) := by
  have hinv0 : Inv (⟨[]⟩ : NumberKeyMap V) := by
    intro i hi
    simp at hi
  have hfresh : ∀ p ∈ ps, ∀ v', ¬ MemE (⟨[]⟩ : NumberKeyMap V).slots p.1 v' := by
    rintro p _ v' ⟨i, hi⟩
    simp at hi
  refine ⟨run_exists hinv0 hnd hval hfresh, ?_⟩
  intro m' hrun p hp
  have hinv' := run_inv hrun hinv0
  have hmem : MemE m'.slots p.1 p.2 := by
    rw [run_memE hrun p.1 p.2]
    exact Or.inr hp
  exact inv_mem_get hinv' hmem

/-- Witness for C3, on the concrete insert sequence `[(0, 10), (1, 11)]`. -/
theorem C3_witness :
    ((([(0, 10), (1, 11)] : List (Nat × Nat)).map Prod.fst).Nodup) ∧
    ((∃ m', InsertRun ⟨[]⟩ [(0, 10), (1, 11)] m') ∧
     ∀ m', InsertRun (⟨[]⟩ : NumberKeyMap Nat) [(0, 10), (1, 11)] m' →
       ∀ p ∈ ([(0, 10), (1, 11)] : List (Nat × Nat)), get m' p.1 = .ok (some p.2)) :=
  ⟨by decide, C3_round_trip [(0, 10), (1, 11)] (by decide) (by decide)⟩

/-- C4 (code bug): `remove` on a map on which no insertion has ever occurred
(null buffer, capacity 0) aborts — `key % capacity` is a remainder-by-zero
panic and the slot lookup asserts a non-null buffer — even for the perfectly
valid key 0; the claim (and `remove`'s own panic documentation) says the only
abort condition is `key == MAX_KEY`. -/
theorem C4_remove_unallocated_aborts :
    (0 : Nat) ≠ MAX_KEY ∧ remove (⟨[]⟩ : NumberKeyMap Nat) 0 = .panic :=
  ⟨by decide, by decide⟩

/-- C5: Duplicate rejection.  From any invariant-satisfying map holding a live
entry `(k, v)`, inserting any value `w` under `k` reports the duplicate-key
failure carrying back exactly `w` (for some fuel such a run exists, and every
duplicate-reporting run hands back `w`), and afterwards `get k` still returns
the prior value `v`. -/
theorem C5_duplicate_rejection {V : Type} (m : NumberKeyMap V) (k : Nat) (v w : V)
    (hinv : Inv m) (hlive : get m k = .ok (some v)) :
    (∃ f m', insert m k w f = .dup m' w) ∧
    (∀ (f : Nat) (m' : NumberKeyMap V) (w' : V), insert m k w f = .dup m' w' →
      w' = w ∧ get m' k = .ok (some v)) := by
  refine ⟨insert_dup_exists w hinv hlive, ?_⟩
  intro f m' w' hdup
  refine ⟨(insert_dup_len hdup).2, ?_⟩
  have hinv' := insert_dup_inv hinv hdup
  rcases get_some_elim hlive with ⟨hk, hlen, hslot⟩
  have hmem : MemE m'.slots k v := (insert_dup_memE hdup k v).mpr ⟨_, hslot⟩
  exact inv_mem_get hinv' hmem

/-- Witness for C5, at the concrete one-entry map {1 ↦ 10}. -/
theorem C5_witness :
    Inv (⟨[some (1, 10)]⟩ : NumberKeyMap Nat) ∧
    get (⟨[some (1, 10)]⟩ : NumberKeyMap Nat) 1 = .ok (some 10) ∧
    ((∃ f m', insert (⟨[some (1, 10)]⟩ : NumberKeyMap Nat) 1 99 f = .dup m' 99) ∧
     (∀ (f : Nat) (m' : NumberKeyMap Nat) (w' : Nat),
       insert (⟨[some (1, 10)]⟩ : NumberKeyMap Nat) 1 99 f = .dup m' w' →
       w' = 99 ∧ get m' 1 = .ok (some 10))) :=
  ⟨by decide, by decide,
    C5_duplicate_rejection ⟨[some (1, 10)]⟩ 1 10 99 (by decide) (by decide)⟩

/-- C6 counterexample: on the reachable one-entry map {1 ↦ 0} (capacity 1) the
duplicate insert of key 1 returns the duplicate failure AND commits a resize:
the resulting capacity is 4, not 1 — refuting "an insert that fails with the
duplicate-key error leaves the map's capacity and buffer unchanged". -/
theorem C6_counterexample :
    Reachable (⟨[some (1, 0)]⟩ : NumberKeyMap Nat) ∧
    insert (⟨[some (1, 0)]⟩ : NumberKeyMap Nat) 1 99 1 =
      .dup ⟨[none, some (1, 0), none, none]⟩ 99 ∧
    (⟨[none, some (1, 0), none, none]⟩ : NumberKeyMap Nat).slots.length ≠
      (⟨[some (1, 0)]⟩ : NumberKeyMap Nat).slots.length :=
  ⟨reachable_M1, by decide, by decide⟩

/-- C6 amended: resize is triggered by any failed fast-path probe, duplicate
included: a duplicate-key failing insert on an allocated map commits a resize —
it hands back exactly the rejected value and the capacity strictly grows. -/
theorem C6_amended {V : Type} (m m' : NumberKeyMap V) (k : Nat) (w w' : V) (f : Nat)
    (hdup : insert m k w f = .dup m' w') :
    w' = w ∧ m.slots.length < m'.slots.length := by
  have h := insert_dup_len hdup
  exact ⟨h.2, h.1⟩

/-- Witness for the amended C6, at the concrete duplicate insert on {1 ↦ 0}. -/
theorem C6_amended_witness :
    insert (⟨[some (1, 0)]⟩ : NumberKeyMap Nat) 1 99 1 =
      .dup ⟨[none, some (1, 0), none, none]⟩ 99 ∧
    ((99 : Nat) = 99 ∧ (⟨[some (1, 0)]⟩ : NumberKeyMap Nat).slots.length <
      (⟨[none, some (1, 0), none, none]⟩ : NumberKeyMap Nat).slots.length) :=
  ⟨by decide, C6_amended _ _ 1 99 99 1 (by decide)⟩

/-- C7 counterexample: capacity 4 — a power of two — is reachable: it is the
committed capacity after the very first collision-driven resize
(`greater_capacity 1 = 1*2 + 2 = 4`; the power-of-two adjustment exists only in
the `* 8 / 7` branch), refuting "in every reachable state with capacity > 1 the
capacity is not a power of two". -/
theorem C7_counterexample :
    Reachable (⟨[some (0, 0), some (1, 0), none, none]⟩ : NumberKeyMap Nat) ∧
    1 < (⟨[some (0, 0), some (1, 0), none, none]⟩ : NumberKeyMap Nat).slots.length ∧
    isPowerOfTwo
      (⟨[some (0, 0), some (1, 0), none, none]⟩ : NumberKeyMap Nat).slots.length =
      true := by
  refine ⟨?_, by decide, ?_⟩
  · have h1 : insert (⟨[]⟩ : NumberKeyMap Nat) 0 0 0 = .ok ⟨[some (0, 0)]⟩ := by decide
    have h2 : insert (⟨[some (0, 0)]⟩ : NumberKeyMap Nat) 1 0 1 =
        .ok ⟨[some (0, 0), some (1, 0), none, none]⟩ := by decide
    exact .insert_ok (.insert_ok .new h1) h2
  · show isPowerOfTwo 4 = true
    simp [isPowerOfTwo]

/-- C7 amended: the power-of-two adjustment applies only in the large-table
branch of the growth policy: for every capacity ≥ 16 the produced capacity is
never a power of two (the small-table branch `capacity*2 + 2` can produce the
reachable power-of-two capacity 4). -/
theorem C7_amended (c : Nat) (h : 16 ≤ c) :
    isPowerOfTwo (greater_capacity c) = false := by
  unfold greater_capacity
  rw [if_neg (by omega)]
  dsimp only
  have hn18 : 18 ≤ c * 8 / 7 := by
    rw [Nat.le_div_iff_mul_le (by omega)]
    omega
  by_cases hp : isPowerOfTwo (c * 8 / 7) = true
  · rw [if_pos hp]
    have heven : c * 8 / 7 % 2 = 0 := pow2_even (by omega) hp
    exact pow2_odd_false (by omega) (by omega)
  · rw [if_neg hp]
    exact Bool.not_eq_true _ |>.mp hp

/-- Witness for the amended C7, at capacity 16 (`greater_capacity 16 = 18`). -/
theorem C7_amended_witness :
    16 ≤ 16 ∧ isPowerOfTwo (greater_capacity 16) = false :=
  ⟨by decide, C7_amended 16 (by decide)⟩

/-- C8 counterexample: drain the reachable map `M2` = {1 ↦ 10, 2 ↦ 20} for one
`next` call and drop the iterator: key 1 was yielded (its slot is vacant), but
the un-yielded key 2 remains occupied and `get 2` still returns its value —
refuting "after an abandoned drain, `get k` returns absent for every previously
live key". -/
theorem C8_counterexample :
    Reachable M2 ∧
    drain_go M2.slots 1 = ([(1, 10)], [none, none, some (2, 20), none]) ∧
    get (⟨(drain_go M2.slots 1).2⟩ : NumberKeyMap Nat) 2 = .ok (some 20) :=
  ⟨reachable_M2, by decide, by decide⟩

/-- C8 amended: abandoning a drain after `n` calls to `next` leaves every
yielded entry's slot vacant (`get` returns absent) while every live entry not
yet yielded stays in place (`get` still returns its value); dropping the
iterator vacates nothing further. -/
theorem C8_amended {V : Type} (m : NumberKeyMap V) (n k : Nat) (v : V)
    (hinv : Inv m) (hlive : MemE m.slots k v) :
    ((k, v) ∈ (drain_go m.slots n).1 →
      get (⟨(drain_go m.slots n).2⟩ : NumberKeyMap V) k = .ok none) ∧
    ((k, v) ∉ (drain_go m.slots n).1 →
      get (⟨(drain_go m.slots n).2⟩ : NumberKeyMap V) k = .ok (some v)) := by
  rcases hlive with ⟨i, hi⟩
  have hpos := (slotsInv_iff.mp hinv) i k v hi
  constructor
  · intro hy
    rcases drain_go_yielded m.slots n hy with ⟨j, hj1, hj2⟩
    have hposj := (slotsInv_iff.mp hinv) j k v hj1
    apply get_of_vacant hpos.1
    show ((drain_go m.slots n).2)[k % ((drain_go m.slots n).2).length]? = some none
    rw [drain_go_length, ← hposj.2]
    exact hj2
  · intro hny
    have hkept := drain_go_kept m.slots n i hi hny
    apply get_of_slot hpos.1
    show ((drain_go m.slots n).2)[k % ((drain_go m.slots n).2).length]? =
      some (some (k, v))
    rw [drain_go_length, ← hpos.2]
    exact hkept

/-- Witness for the amended C8, at `M2` drained for one step: the un-yielded
key 2 is still retrievable. -/
theorem C8_amended_witness :
    Inv M2 ∧
    (((2, 20) ∈ (drain_go M2.slots 1).1 →
       get (⟨(drain_go M2.slots 1).2⟩ : NumberKeyMap Nat) 2 = .ok none) ∧
     ((2, 20) ∉ (drain_go M2.slots 1).1 →
       get (⟨(drain_go M2.slots 1).2⟩ : NumberKeyMap Nat) 2 = .ok (some 20))) :=
  ⟨by decide, C8_amended M2 1 2 20 (by decide) ⟨2, by decide⟩⟩

/-- C9: Resize termination.  From any invariant-satisfying map state and any
valid triggering key: (i) the growth policy strictly increases the candidate
capacity on every retry; (ii) some capacity maps all live keys plus the
triggering key to pairwise-distinct slots; (iii) the retry loop of
`slow_insert` commits (success or committed-duplicate) within some finite fuel. -/
theorem C9_resize_termination {V : Type} (m : NumberKeyMap V) (k : Nat) (v : V)
    (hinv : Inv m) (hk : k ≠ MAX_KEY) :
    (∀ c, c < greater_capacity c) ∧
    (∃ C : Nat, 0 < C ∧ ∀ (k₁ k₂ : Nat),
      (k₁ = k ∨ ∃ v', MemE m.slots k₁ v') → (k₂ = k ∨ ∃ v', MemE m.slots k₂ v') →
      k₁ ≠ k₂ → k₁ % C ≠ k₂ % C) ∧
    (∃ (f : Nat) (m' : NumberKeyMap V),
      slow_insert m k v f = .ok m' ∨ slow_insert m k v f = .dup m' v) := by
  have hbk : k < (scan_slots m.slots).foldr (fun e m => max e.1 m) k + 1 := by
    have := maxKeyFrom_base (scan_slots m.slots) k
    omega
  have hbold : ∀ (k' : Nat) (v' : V), some (k', v') ∈ m.slots →
      k' < (scan_slots m.slots).foldr (fun e m => max e.1 m) k + 1 := by
    intro k' v' hm
    have h1 : k' ≤ (scan_slots m.slots).foldr (fun e m => max e.1 m) k :=
      maxKeyFrom_mem k (scan_slots_mem.mpr hm)
    omega
  refine ⟨gc_gt, ⟨(scan_slots m.slots).foldr (fun e m => max e.1 m) k + 1,
    by omega, ?_⟩, ?_⟩
  · intro k₁ k₂ h1 h2 hne
    have hk1 : k₁ < (scan_slots m.slots).foldr (fun e m => max e.1 m) k + 1 := by
      rcases h1 with rfl | ⟨v', hv'⟩
      · exact hbk
      · exact hbold _ v' (memE_iff_mem.mp hv')
    have hk2 : k₂ < (scan_slots m.slots).foldr (fun e m => max e.1 m) k + 1 := by
      rcases h2 with rfl | ⟨v', hv'⟩
      · exact hbk
      · exact hbold _ v' (memE_iff_mem.mp hv')
    rw [Nat.mod_eq_of_lt hk1, Nat.mod_eq_of_lt hk2]
    exact hne
  · rcases loop_term (pairwise_of_inv hinv) (validKeys_of_inv hinv) _ hbold hbk
        ((scan_slots m.slots).foldr (fun e m => max e.1 m) k + 1)
        (greater_capacity m.slots.length) (gc_pos _) (by omega) with ⟨f, m', h⟩
    exact ⟨f, m', h⟩

/-- Witness for C9, at the concrete map {1 ↦ 0} with triggering key 2. -/
theorem C9_witness :
    Inv (⟨[some (1, 0)]⟩ : NumberKeyMap Nat) ∧
    ((∀ c, c < greater_capacity c) ∧
     (∃ C : Nat, 0 < C ∧ ∀ (k₁ k₂ : Nat),
       (k₁ = 2 ∨ ∃ v', MemE (⟨[some (1, 0)]⟩ : NumberKeyMap Nat).slots k₁ v') →
       (k₂ = 2 ∨ ∃ v', MemE (⟨[some (1, 0)]⟩ : NumberKeyMap Nat).slots k₂ v') →
       k₁ ≠ k₂ → k₁ % C ≠ k₂ % C) ∧
     (∃ (f : Nat) (m' : NumberKeyMap Nat),
       slow_insert (⟨[some (1, 0)]⟩ : NumberKeyMap Nat) 2 0 f = .ok m' ∨
       slow_insert (⟨[some (1, 0)]⟩ : NumberKeyMap Nat) 2 0 f = .dup m' 0)) :=
  ⟨by decide, C9_resize_termination ⟨[some (1, 0)]⟩ 2 0 (by decide) (by decide)⟩

/-- C10: on a map on which no insertion has ever occurred (null buffer,
capacity 0), `iter`, `iter_mut`, the consuming iterator and `drain` (after any
number of `next` calls) all yield the empty sequence; these scans dereference no
slot and need no allocation check, so — unlike `remove` — they cannot abort on
the unallocated map (their models have no panic outcome). -/
theorem C10_empty_iteration (V : Type) :
    iter_list (⟨[]⟩ : NumberKeyMap V) = [] ∧
    iter_mut_list (⟨[]⟩ : NumberKeyMap V) = [] ∧
    into_iter_list (⟨[]⟩ : NumberKeyMap V) = [] ∧
    (∀ n : Nat, drain_go ([] : Slots V) n = ([], [])) := by
  refine ⟨rfl, rfl, rfl, fun n => ?_⟩
  cases n <;> simp [drain_go]

end OrengineNumberKeyMap
